import Mathlib

/-!
Shallow embedding of the `errant` repository (two source files):

* `src/errant/hi/hindi_stemmer.py` — the `HindiStemmer.stem` suffix stripper.
  Python strings are sequences of Unicode code points, so words are embedded
  as `List Char` (Lean `Char` is one code point, like Python `len`/slicing).
* `src/errant/commands/parallel_to_m2.py` — the driver `main` /
  `process_sentences`.  The external collaborators (the stanfordnlp parser and
  the `errant.annotator.Annotator`) are outside the repository: their outcomes
  (parse failure, annotate failure, or a list of classified `Edit`s) enter the
  model as oracle data, and Python exceptions are modelled with `Except`,
  caught exactly where the source has `try`/`except`.  File I/O is modelled by
  an explicit state: every `f.write(x + "\n")` in the source writes exactly one
  newline-terminated chunk, so a file's content is kept as its list of lines.
-/

namespace Errant

/-! ### Hindi stemmer (`src/errant/hi/hindi_stemmer.py`) -/

/-- The `suffixes` dict literal of `HindiStemmer.stem`, keyed by suffix length. -/
def suffixes : Nat → List (List Char)
  | 1 => ["ो", "े", "ू", "ु", "ी", "ि", "ा"].map String.data
  | 2 => ["कर", "ाओ", "िए", "ाई", "ाए", "ने", "नी", "ना", "ते", "ीं", "ती", "ता", "ाँ", "ां", "ों",
          "ें"].map String.data
  | 3 => ["ाकर", "ाइए", "ाईं", "ाया", "ेगी", "ेगा", "ोगी", "ोगे", "ाने", "ाना", "ाते", "ाती", "ाता",
          "तीं", "ाओं", "ाएं", "ुओं", "ुएं", "ुआं"].map String.data
  | 4 => ["ाएगी", "ाएगा", "ाओगी", "ाओगे", "एंगी", "ेंगी", "एंगे", "ेंगे", "ूंगी", "ूंगा", "ातीं",
          "नाओं", "नाएं", "ताओं", "ताएं", "ियाँ", "ियों", "ियां"].map String.data
  | 5 => ["ाएंगी", "ाएंगे", "ाऊंगी", "ाऊंगा", "ाइयाँ", "ाइयों", "ाइयां"].map String.data
  | _ => []

/-- Python `word.endswith(suf)`. -/
def endsWith (word suf : List Char) : Bool := decide (suf <:+ word)

/-- The `for L in 5, 4, 3, 2, 1` loop of `HindiStemmer.stem`: for each length
`L` (in the order of the given list), if `len(word) > L + 1`, the inner loop
returns `word[:-L]` for the first suffix of `suffixes[L]` that `word` ends
with; otherwise the outer loop continues. -/
def stemAux (word : List Char) : List Nat → List Char
  | [] => word
  | L :: rest =>
    if word.length > L + 1 then
      match (suffixes L).find? (fun suf => endsWith word suf) with
      | some _ => word.take (word.length - L)
      | none => stemAux word rest
    else stemAux word rest

/-- `HindiStemmer.stem(word)`. -/
def stem (word : List Char) : List Char := stemAux word [5, 4, 3, 2, 1]

/-- Written from the wording of the claim (for the refinement theorem, to be
compared against `stem`, which is translated from the source): suffix lengths
are tried in the fixed decreasing order 5, 4, 3, 2, 1, and the first length
whose minimum-remaining-length guard holds and whose suffix list contains a
suffix of the word determines the result — that many trailing characters are
stripped; if no length applies the word is returned unchanged. -/
def stemClaimed (word : List Char) : List Char :=
  match [5, 4, 3, 2, 1].find?
      (fun L => decide (word.length > L + 1) && (suffixes L).any (fun suf => endsWith word suf)) with
  | some L => word.take (word.length - L)
  | none => word

/-! ### Driver (`src/errant/commands/parallel_to_m2.py`)

External data model.  A stanfordnlp `Document` exposes `sentences`, each
exposing `words`, each with a `.text`; `process_sentences` reads nothing else
from the original document, so an original document is `List (List Word)`.
A classified `Edit` produced by the annotator carries its `type` string, its
`to_m2(cor_id)` rendering and its `to_srctrg()` pair. -/

structure Word where
  text : String
deriving Repr, DecidableEq

structure Edit where
  type : String
  toM2 : Nat → String
  toSrcTrg : String × String

/-- The outcome of `annotator.annotate(orig, cor, ...)` for one corrected
document: either it raises (caught by the inner `try` of
`process_sentences`), or it yields a list of classified edits. -/
inductive CorResult where
  | alignFail
  | edits (es : List Edit)

/-- The outcome of one group of parallel lines in `main`'s loop: either some
`annotator.parse` call for the group raises (caught by the `try` inside the
loop), or all lines parse, giving the original document and, for each
corrected document, its annotate outcome. -/
inductive GroupResult where
  | parseFail
  | parsed (origSents : List (List Word)) (cors : List CorResult)

/-- One output file handle: its path, the lines written to it so far, and
whether it is still open.  Each `write` in the source writes exactly one
newline-terminated chunk (`x + "\n"`, or `"\n"` alone for the separator), so
content is kept as the list of written lines (the bare `"\n"` is `""`). -/
structure Handle where
  path : String
  lines : List String
  isOpen : Bool
deriving Repr, DecidableEq

/-- The driver's mutable state: the `error_count` Counter (an insertion-ordered
key/count list, as Python dicts iterate in insertion order), the `out_files`
dict mapping sanitized type names to the `(m2, src, trg)` handle triple, the
set of directories created by `os.makedirs`, and the log of messages printed
by the two `except` handlers. -/
structure St where
  errorCount : List (String × Nat)
  outFiles : List (String × (Handle × Handle × Handle))
  dirs : List String
  log : List String
deriving Repr, DecidableEq

/-- Whether each `open(path, 'w')` call raises `OSError`; the environment
oracle for I/O failures.  (Any operation raising inside the inner `try` of
`process_sentences` is handled identically by its `except Exception`.) -/
structure Oracle where
  openFails : String → Bool

def initSt : St := ⟨[], [], [], []⟩

/-- `error_count[edit.type] += 1` on the Counter. -/
def bumpCount : List (String × Nat) → String → List (String × Nat)
  | [], k => [(k, 1)]
  | (k0, c) :: rest, k =>
    if k0 == k then (k0, c + 1) :: rest else (k0, c) :: bumpCount rest k

/-- Python dict lookup (`d[k]` / `k in d`) on an insertion-ordered list. -/
def lookupA {α : Type} (l : List (String × α)) (k : String) : Option α :=
  (l.find? (fun kv => kv.1 == k)).map (fun kv => kv.2)

/-- Update the value stored at key `k` (first occurrence), leaving other
entries unchanged. -/
def updateA {α : Type} : List (String × α) → String → (α → α) → List (String × α)
  | [], _, _ => []
  | (k0, v) :: rest, k, f =>
    if k0 == k then (k0, f v) :: rest else (k0, v) :: updateA rest k f

/-- `edit.type.replace(":", "_")` (single-character pattern, so a map). -/
def replaceColons (s : String) : String :=
  String.mk (s.data.map (fun c => if c == ':' then '_' else c))

/-- `os.path.join("out", file_name)`. -/
def outDir (fname : String) : String := "out/" ++ fname

/-- `os.path.join("out", file_name, file_name)`. -/
def filePath (fname : String) : String := outDir fname ++ "/" ++ fname

/-- `" ".join(ws)`. -/
def joinSp (ws : List String) : String := String.intercalate " " ws

/-- The five writes performed for one edit: the `S` source line, the
`edit.to_m2(cor_id)` line and the blank separator to the `.m2` handle, and one
line each to the `.src` and `.trg` handles. -/
def writeLines (h3 : Handle × Handle × Handle) (sLine ann src trg : String) :
    Handle × Handle × Handle :=
  ({ h3.1 with lines := h3.1.lines ++ [sLine, ann, ""] },
   { h3.2.1 with lines := h3.2.1.lines ++ [src] },
   { h3.2.2 with lines := h3.2.2.lines ++ [trg] })

/-- `outfile = out_m2[file_name]` followed by the five writes. -/
def writeEditTo (st : St) (fname : String) (sLine : String) (corId : Nat) (edit : Edit) : St :=
  { st with outFiles := updateA st.outFiles fname (fun h3 =>
      writeLines h3 sLine (edit.toM2 corId) edit.toSrcTrg.1 edit.toSrcTrg.2) }

/-- A freshly opened `(m2, src, trg)` handle triple for `file_name`. -/
def freshHandles (fname : String) : Handle × Handle × Handle :=
  (⟨filePath fname ++ ".m2", [], true⟩,
   ⟨filePath fname ++ ".src", [], true⟩,
   ⟨filePath fname ++ ".trg", [], true⟩)

/-- The body of `for edit in edits` in `process_sentences`: increment the
counter, sanitize the type into `file_name`, on first use run `os.makedirs`
(`exist_ok=True`) and open the three output files (each `open` may raise,
modelled by the oracle; on a raise the state reached so far is carried to the
handler as `Except.error`), then write the edit.  Note the counter increment
happens before the opens, and a triple is stored in `out_files` only when all
three opens succeed. -/
def processEdit (orc : Oracle) (sLine : String) (corId : Nat) (st : St) (edit : Edit) :
    Except St St :=
  let st1 : St := { st with errorCount := bumpCount st.errorCount edit.type }
  let fname := replaceColons edit.type
  match lookupA st1.outFiles fname with
  | some _ => .ok (writeEditTo st1 fname sLine corId edit)
  | none =>
    let st2 : St :=
      if st1.dirs.contains (outDir fname) then st1
      else { st1 with dirs := st1.dirs ++ [outDir fname] }
    if orc.openFails (filePath fname ++ ".m2") then .error st2
    else if orc.openFails (filePath fname ++ ".src") then .error st2
    else if orc.openFails (filePath fname ++ ".trg") then .error st2
    else
      let st3 : St := { st2 with outFiles := st2.outFiles ++ [(fname, freshHandles fname)] }
      .ok (writeEditTo st3 fname sLine corId edit)

/-- `for edit in edits`, propagating a raise (with the state reached so far)
to the surrounding handler. -/
def processEdits (orc : Oracle) (sLine : String) (corId : Nat) :
    St → List Edit → Except St St
  | st, [] => .ok st
  | st, e :: es =>
    match processEdit orc sLine corId st e with
    | .ok st1 => processEdits orc sLine corId st1 es
    | .error st1 => .error st1

/-- One iteration of `for cor_id, cor in enumerate(cors)`: the inner
`try`/`except Exception` of `process_sentences`, which logs
`Failed to align texts` both when `annotate` raises and when any operation in
the edit loop raises, and then lets the loop continue. -/
def processCor (orc : Oracle) (sLine : String) (st : St) (corId : Nat) (cor : CorResult) : St :=
  match cor with
  | .alignFail => { st with log := st.log ++ ["Failed to align texts"] }
  | .edits es =>
    match processEdits orc sLine corId st es with
    | .ok st1 => st1
    | .error st1 => { st1 with log := st1.log ++ ["Failed to align texts"] }

/-- `process_sentences(orig, cors, ...)`: flatten the original document's words
into `temp1`, build the `S` line `" ".join(["S"] + [token.text for token in
temp1])`, then loop over the corrected documents. -/
def processSentences (orc : Oracle) (st : St) (origSents : List (List Word))
    (cors : List CorResult) : St :=
  let temp1 := origSents.flatten
  let sLine := joinSp ("S" :: temp1.map (fun w => w.text))
  cors.enum.foldl (fun s ic => processCor orc sLine s ic.1 ic.2) st

/-- One iteration of `for lines in zip(*files)` in `main`, with its
`try`/`except Exception` that logs `Failed to process line` when a parse
raises, and lets the loop continue. -/
def processGroup (orc : Oracle) (st : St) (g : GroupResult) : St :=
  match g with
  | .parseFail => { st with log := st.log ++ ["Failed to process line"] }
  | .parsed origSents cors => processSentences orc st origSents cors

/-- The whole `for lines in zip(*files)` loop. -/
def runLoop (orc : Oracle) (groups : List GroupResult) (st : St) : St :=
  groups.foldl (processGroup orc) st

/-- Closing one handle triple: `list(map(lambda file: file.close(), ...))`. -/
def closeTriple (h3 : Handle × Handle × Handle) : Handle × Handle × Handle :=
  ({ h3.1 with isOpen := false }, { h3.2.1 with isOpen := false },
   { h3.2.2 with isOpen := false })

/-- The `finally` block of `main`: `for out_file in out_files: ...close()` —
every handle triple stored in `out_files` is closed. -/
def closeAll (st : St) : St :=
  { st with outFiles := st.outFiles.map (fun kv => (kv.1, closeTriple kv.2)) }

/-- The histogram written to `error_file` at end of run:
`error_file.write(str(key) + '\t' + str(error_count[key]))` for each key —
note the source appends no newline. -/
def histogramContent (st : St) : String :=
  String.join (st.errorCount.map (fun kc => kc.1 ++ "\t" ++ toString kc.2))

/-- `main` after argument parsing: run the loop over all line groups, close
every stored handle in the `finally` block, then write the histogram file.
Returns the final driver state and the histogram file's content. -/
def runMain (orc : Oracle) (groups : List GroupResult) : St × String :=
  let st := closeAll (runLoop orc groups initSt)
  (st, histogramContent st)

/-! ### Observation helpers and state invariants used by the theorems -/

/-- The state a raising iteration hands to its `except` handler, or the state
a normal iteration continues with. -/
def stOf : Except St St → St
  | .ok st => st
  | .error st => st

/-- `error_count[label]` (0 when absent, as for a Python `Counter`). -/
def countOf (st : St) (label : String) : Nat :=
  (lookupA st.errorCount label).getD 0

/-- The lines written so far to the `.m2` file of `file_name` (empty when the
file was never opened). -/
def m2LinesOf (st : St) (fname : String) : List String :=
  match lookupA st.outFiles fname with
  | some h3 => h3.1.lines
  | none => []

/-- The lines written so far to the `.src` file of `file_name`. -/
def srcLinesOf (st : St) (fname : String) : List String :=
  match lookupA st.outFiles fname with
  | some h3 => h3.2.1.lines
  | none => []

/-- The lines written so far to the `.trg` file of `file_name`. -/
def trgLinesOf (st : St) (fname : String) : List String :=
  match lookupA st.outFiles fname with
  | some h3 => h3.2.2.lines
  | none => []

/-- Structural invariant of the handle map: every stored triple consists of
the `.m2`, `.src` and `.trg` files at the paths derived from its key, inside
a directory that has been created. -/
def structInv (st : St) : Prop :=
  ∀ kv ∈ st.outFiles,
    kv.2.1.path = filePath kv.1 ++ ".m2" ∧
    kv.2.2.1.path = filePath kv.1 ++ ".src" ∧
    kv.2.2.2.path = filePath kv.1 ++ ".trg" ∧
    outDir kv.1 ∈ st.dirs

/-- Every observed error-type label has an output entry under its sanitized
name. -/
def obsInv (st : St) : Prop :=
  ∀ label, (∃ c, (label, c) ∈ st.errorCount) →
    (lookupA st.outFiles (replaceColons label)).isSome = true

/-- Laziness invariant: an output entry exists only for (the sanitized name
of) a label already recorded in the error counter. -/
def keysInv (st : St) : Prop :=
  ∀ kv ∈ st.outFiles,
    ∃ label c, (label, c) ∈ st.errorCount ∧ kv.1 = replaceColons label

/-- Block-structure invariant of every `.m2` file: its lines decompose into
blocks of an `S` source line (`"S"` space-joined with a token list), one
annotation line, and a blank separator line, where every block satisfies the
provenance predicate `R` (instantiated at the run level to tie each block's
token list to the original document of the group that produced its edit). -/
def blocksInv (R : List String × String → Prop) (st : St) : Prop :=
  ∀ kv ∈ st.outFiles,
    ∃ blocks : List (List String × String),
      kv.2.1.lines = blocks.flatMap (fun b => [joinSp ("S" :: b.1), b.2, ""]) ∧
      ∀ b ∈ blocks, R b

/-! ### Concrete runs used as evaluation inputs -/

/-- A concrete `R:DET` edit as the annotator would produce for
`a dog` → `the dog`. -/
def edRD : Edit :=
  ⟨"R:DET", fun _ => "A 0 1|||R:DET|||the|||REQUIRED|||-NONE-|||0", ("a dog", "the dog")⟩

/-- A concrete `R:VERB` edit as the annotator would produce for
`he run` → `he runs`. -/
def edRV : Edit :=
  ⟨"R:VERB", fun _ => "A 1 2|||R:VERB|||runs|||REQUIRED|||-NONE-|||0", ("he run", "he runs")⟩

/-- The environment in which no `open` raises. -/
def orcOk : Oracle := ⟨fun _ => false⟩

/-- The environment in which opening `out/R_DET/R_DET.m2` raises `OSError`. -/
def orcFailM2 : Oracle := ⟨fun p => p == "out/R_DET/R_DET.m2"⟩

/-- One parallel line group (`a dog` / `the dog`) yielding one `R:DET` edit. -/
def g1 : GroupResult := .parsed [[⟨"a"⟩, ⟨"dog"⟩]] [.edits [edRD]]

/-- One parallel line group yielding one `R:DET` and one `R:VERB` edit, so
that two distinct labels are observed in the run. -/
def g2 : GroupResult := .parsed [[⟨"he"⟩, ⟨"run"⟩]] [.edits [edRD, edRV]]

/-- The `R_DET` output entry as it stands at the end of the run on `g1`
(handles closed by the `finally` block). -/
def kvDET : String × (Handle × Handle × Handle) :=
  ("R_DET",
   (⟨"out/R_DET/R_DET.m2", ["S a dog", "A 0 1|||R:DET|||the|||REQUIRED|||-NONE-|||0", ""], false⟩,
    ⟨"out/R_DET/R_DET.src", ["a dog"], false⟩,
    ⟨"out/R_DET/R_DET.trg", ["the dog"], false⟩))

/-- The `R_DET` output entry as it stands just before the `finally` block of
the run on `g1` (handles still open). -/
def kvDETopen : String × (Handle × Handle × Handle) :=
  ("R_DET",
   (⟨"out/R_DET/R_DET.m2", ["S a dog", "A 0 1|||R:DET|||the|||REQUIRED|||-NONE-|||0", ""], true⟩,
    ⟨"out/R_DET/R_DET.src", ["a dog"], true⟩,
    ⟨"out/R_DET/R_DET.trg", ["the dog"], true⟩))

end Errant

/-! ## Helper lemmas -/

namespace Errant

/-- Every entry of `suffixes[L]` has exactly `L` characters (a fact of the
concrete table literal). -/
lemma suffixes_length : ∀ L ∈ ([5, 4, 3, 2, 1] : List Nat), ∀ s ∈ suffixes L, s.length = L := by
  decide

lemma find?_isSome_eq_any {α : Type} (p : α → Bool) (l : List α) :
    (l.find? p).isSome = l.any p := by
  induction l with
  | nil => rfl
  | cons a t ih =>
    simp only [List.find?, List.any]
    cases h : p a <;> simp [h, ih]

/-- The loop of `stem` computed as a first-match search over the length list:
`stemAux word Ls` strips at the first length in `Ls` whose guard holds and
whose suffix list contains a suffix of the word. -/
lemma stemAux_eq_find (word : List Char) (Ls : List Nat) :
    stemAux word Ls =
      match Ls.find? (fun L =>
          decide (word.length > L + 1) && (suffixes L).any (fun suf => endsWith word suf)) with
      | some L => word.take (word.length - L)
      | none => word := by
  induction Ls with
  | nil => rfl
  | cons L rest ih =>
    by_cases hg : word.length > L + 1
    · simp only [stemAux, hg, if_true, List.find?, decide_eq_true hg, Bool.true_and]
      cases hf : (suffixes L).find? (fun suf => endsWith word suf) with
      | some s =>
        have hany : (suffixes L).any (fun suf => endsWith word suf) = true := by
          rw [← find?_isSome_eq_any, hf]; rfl
        simp [hany]
      | none =>
        have hany : (suffixes L).any (fun suf => endsWith word suf) = false := by
          rw [← find?_isSome_eq_any, hf]; rfl
        simp [hany, ih]
    · have hg' : decide (word.length > L + 1) = false := by simp [hg]
      simp only [stemAux, hg, if_false, List.find?, hg', decide_False, Bool.false_and, ih]

/-- If `endsWith word s` then `word` splits as `t ++ s` and stripping
`s.length` characters returns `t`. -/
lemma take_of_endsWith {word s : List Char} (h : endsWith word s = true) :
    ∃ t, t ++ s = word ∧ word.take (word.length - s.length) = t := by
  have hs : s <:+ word := of_decide_eq_true h
  obtain ⟨t, ht⟩ := hs
  refine ⟨t, ht, ?_⟩
  subst ht
  have hlen : (t ++ s).length - s.length = t.length := by
    simp [List.length_append]
  rw [hlen, List.take_left]

/-- When the first applicable length is `L`, `stem` strips a table suffix of
length exactly `L` and the result plus that suffix reconstructs the word. -/
lemma stem_of_find?_some {word : List Char} {L : Nat}
    (hf : ([5, 4, 3, 2, 1] : List Nat).find? (fun L =>
        decide (word.length > L + 1) && (suffixes L).any (fun suf => endsWith word suf)) =
      some L) :
    word.length > L + 1 ∧
    ∃ s ∈ suffixes L, s.length = L ∧ stem word ++ s = word ∧
      stem word = word.take (word.length - L) := by
  have hstem : stem word = word.take (word.length - L) := by
    rw [stem, stemAux_eq_find, hf]
  have hp := List.find?_some hf
  have hmem : L ∈ ([5, 4, 3, 2, 1] : List Nat) := List.mem_of_find?_eq_some hf
  rw [Bool.and_eq_true] at hp
  have hg : word.length > L + 1 := of_decide_eq_true hp.1
  obtain ⟨s, hs_mem, hs_ends⟩ := List.any_eq_true.mp hp.2
  have hs_len : s.length = L := suffixes_length L hmem s hs_mem
  obtain ⟨t, ht_app, ht_take⟩ := take_of_endsWith hs_ends
  rw [hs_len] at ht_take
  refine ⟨hg, s, hs_mem, hs_len, ?_, hstem⟩
  rw [hstem, ht_take, ht_app]

/-! Association-list lemmas for the dict / Counter model. -/

lemma lookupA_nil {α : Type} (k : String) : lookupA ([] : List (String × α)) k = none := rfl

lemma lookupA_cons {α : Type} (kv : String × α) (t : List (String × α)) (k : String) :
    lookupA (kv :: t) k = if kv.1 == k then some kv.2 else lookupA t k := by
  cases h : kv.1 == k <;> simp [lookupA, List.find?, h]

lemma lookupA_append {α : Type} (l₁ l₂ : List (String × α)) (k : String) :
    lookupA (l₁ ++ l₂) k =
      match lookupA l₁ k with
      | some v => some v
      | none => lookupA l₂ k := by
  induction l₁ with
  | nil => simp [lookupA_nil]
  | cons kv t ih =>
    rw [List.cons_append, lookupA_cons, lookupA_cons]
    cases h : kv.1 == k <;> simp [h, ih]

lemma lookupA_mem {α : Type} {l : List (String × α)} {k : String} {v : α}
    (h : lookupA l k = some v) : (k, v) ∈ l := by
  induction l with
  | nil => simp [lookupA_nil] at h
  | cons kv t ih =>
    obtain ⟨k0, v0⟩ := kv
    rw [lookupA_cons] at h
    by_cases hk : k0 = k
    · subst hk
      simp only [beq_self_eq_true, if_true, Option.some_inj] at h
      subst h
      exact List.mem_cons_self _ _
    · have hk' : (k0 == k) = false := by simpa using hk
      simp only [hk', Bool.false_eq_true, if_false] at h
      exact List.mem_cons_of_mem _ (ih h)

lemma lookupA_updateA {α : Type} (l : List (String × α)) (k k' : String) (f : α → α) :
    lookupA (updateA l k f) k' =
      if k' = k then (lookupA l k').map f else lookupA l k' := by
  induction l with
  | nil => by_cases h : k' = k <;> simp [updateA, lookupA_nil, h]
  | cons kv t ih =>
    obtain ⟨k0, v0⟩ := kv
    rw [updateA]
    by_cases h0 : k0 = k
    · subst h0
      simp only [beq_self_eq_true, if_true, lookupA_cons]
      by_cases h1 : k0 = k'
      · subst h1
        simp [lookupA_cons]
      · have h1' : (k0 == k') = false := by simpa using h1
        have h1ne : ¬ k' = k0 := fun hc => h1 hc.symm
        simp [lookupA_cons, h1', h1ne]
    · have h0' : (k0 == k) = false := by simpa using h0
      simp only [h0', Bool.false_eq_true, if_false, lookupA_cons]
      by_cases h1 : k0 = k'
      · subst h1
        have hne : ¬ k0 = k := h0
        simp [hne]
      · have h1' : (k0 == k') = false := by simpa using h1
        simp [h1', ih]

lemma mem_updateA {α : Type} {l : List (String × α)} {k : String} {f : α → α} :
    ∀ kv ∈ updateA l k f, ∃ v, (kv.1, v) ∈ l ∧ (kv.2 = v ∨ kv.2 = f v) := by
  induction l with
  | nil => simp [updateA]
  | cons hd t ih =>
    obtain ⟨k0, v0⟩ := hd
    intro kv hkv
    rw [updateA] at hkv
    by_cases h0 : k0 = k
    · subst h0
      simp only [beq_self_eq_true, if_true] at hkv
      rcases List.mem_cons.mp hkv with h | h
      · subst h
        exact ⟨v0, by simp, Or.inr (by simp)⟩
      · exact ⟨kv.2, List.mem_cons_of_mem _ (by simpa using h), Or.inl rfl⟩
    · have h0' : (k0 == k) = false := by simpa using h0
      simp only [h0', Bool.false_eq_true, if_false] at hkv
      rcases List.mem_cons.mp hkv with h | h
      · subst h
        exact ⟨v0, by simp, Or.inl (by simp)⟩
      · obtain ⟨v, hv, hor⟩ := ih kv h
        exact ⟨v, List.mem_cons_of_mem _ hv, hor⟩

lemma lookupA_map_snd {α β : Type} (l : List (String × α)) (g : α → β) (k : String) :
    lookupA (l.map (fun kv => (kv.1, g kv.2))) k = (lookupA l k).map g := by
  induction l with
  | nil => simp [lookupA_nil]
  | cons kv t ih =>
    rw [List.map_cons, lookupA_cons, lookupA_cons]
    cases h : kv.1 == k <;> simp [h, ih]

/-! Counter (`bumpCount`) lemmas. -/

lemma lookupA_bumpCount_self (l : List (String × Nat)) (k : String) :
    lookupA (bumpCount l k) k = some ((lookupA l k).getD 0 + 1) := by
  induction l with
  | nil => simp [bumpCount, lookupA_cons, lookupA_nil]
  | cons kv t ih =>
    obtain ⟨k0, c0⟩ := kv
    rw [bumpCount]
    by_cases h0 : k0 = k
    · subst h0
      simp [lookupA_cons]
    · have h0' : (k0 == k) = false := by simpa using h0
      simp [h0', lookupA_cons, ih]

lemma lookupA_bumpCount_ne (l : List (String × Nat)) (k k' : String) (h : k' ≠ k) :
    lookupA (bumpCount l k) k' = lookupA l k' := by
  induction l with
  | nil =>
    have : (k == k') = false := by simpa using fun hc => h hc.symm
    simp [bumpCount, lookupA_cons, lookupA_nil, this]
  | cons kv t ih =>
    obtain ⟨k0, c0⟩ := kv
    rw [bumpCount]
    by_cases h0 : k0 = k
    · subst h0
      have : (k0 == k') = false := by simpa using fun hc => h hc.symm
      simp [lookupA_cons, this]
    · have h0' : (k0 == k) = false := by simpa using h0
      simp [h0', lookupA_cons, ih]

lemma mem_bumpCount_of_mem {l : List (String × Nat)} {label : String} {c : Nat} (k : String)
    (h : (label, c) ∈ l) : ∃ c2, (label, c2) ∈ bumpCount l k := by
  induction l with
  | nil => simp at h
  | cons kv t ih =>
    obtain ⟨k0, c0⟩ := kv
    rw [bumpCount]
    by_cases h0 : k0 = k
    · subst h0
      simp only [beq_self_eq_true, if_true]
      rcases List.mem_cons.mp h with hh | hh
      · simp only [Prod.mk.injEq] at hh
        exact ⟨c0 + 1, by simp [hh.1]⟩
      · exact ⟨c, List.mem_cons_of_mem _ hh⟩
    · have h0' : (k0 == k) = false := by simpa using h0
      simp only [h0', Bool.false_eq_true, if_false]
      rcases List.mem_cons.mp h with hh | hh
      · exact ⟨c, by simp [hh]⟩
      · obtain ⟨c2, hc2⟩ := ih hh
        exact ⟨c2, List.mem_cons_of_mem _ hc2⟩

lemma mem_bumpCount {l : List (String × Nat)} {k label : String} {c : Nat}
    (h : (label, c) ∈ bumpCount l k) : label = k ∨ ∃ c2, (label, c2) ∈ l := by
  induction l with
  | nil =>
    simp [bumpCount] at h
    exact Or.inl h.1
  | cons kv t ih =>
    obtain ⟨k0, c0⟩ := kv
    rw [bumpCount] at h
    by_cases h0 : k0 = k
    · subst h0
      simp only [beq_self_eq_true, if_true] at h
      rcases List.mem_cons.mp h with hh | hh
      · simp only [Prod.mk.injEq] at hh
        exact Or.inl hh.1
      · exact Or.inr ⟨c, List.mem_cons_of_mem _ hh⟩
    · have h0' : (k0 == k) = false := by simpa using h0
      simp only [h0', Bool.false_eq_true, if_false] at h
      rcases List.mem_cons.mp h with hh | hh
      · simp only [Prod.mk.injEq] at hh
        exact Or.inr ⟨c0, by simp [hh.1]⟩
      · rcases ih hh with hl | ⟨c2, hc2⟩
        · exact Or.inl hl
        · exact Or.inr ⟨c2, List.mem_cons_of_mem _ hc2⟩

lemma mem_bumpCount_self (l : List (String × Nat)) (k : String) :
    ∃ c, (k, c) ∈ bumpCount l k :=
  ⟨(lookupA l k).getD 0 + 1, lookupA_mem (lookupA_bumpCount_self l k)⟩

/-! Preservation of the state invariants by the driver's primitive steps. -/

lemma structInv_writeEditTo {st : St} (h : structInv st) (fname sLine : String) (corId : Nat)
    (edit : Edit) : structInv (writeEditTo st fname sLine corId edit) := by
  intro kv hkv
  obtain ⟨v, hv, hor⟩ := mem_updateA kv hkv
  obtain ⟨p1, p2, p3, hd⟩ := h (kv.1, v) hv
  rcases hor with h1 | h1 <;>
    exact ⟨by rw [h1]; simpa [writeLines] using p1, by rw [h1]; simpa [writeLines] using p2,
           by rw [h1]; simpa [writeLines] using p3, hd⟩

lemma structInv_dirs_append {st : St} (h : structInv st) (d : String) :
    structInv { st with dirs := st.dirs ++ [d] } := by
  intro kv hkv
  obtain ⟨p1, p2, p3, hd⟩ := h kv hkv
  exact ⟨p1, p2, p3, List.mem_append_left _ hd⟩

lemma structInv_insert {st : St} (h : structInv st) (fname : String)
    (hdir : outDir fname ∈ st.dirs) :
    structInv { st with outFiles := st.outFiles ++ [(fname, freshHandles fname)] } := by
  intro kv hkv
  rcases List.mem_append.mp hkv with hm | hm
  · exact h kv hm
  · rw [List.mem_singleton] at hm
    subst hm
    exact ⟨rfl, rfl, rfl, hdir⟩

lemma keysInv_bump {st : St} (h : keysInv st) (k : String) :
    keysInv { st with errorCount := bumpCount st.errorCount k } := by
  intro kv hkv
  obtain ⟨label, c, hc, hk⟩ := h kv hkv
  obtain ⟨c2, hc2⟩ := mem_bumpCount_of_mem k hc
  exact ⟨label, c2, hc2, hk⟩

lemma keysInv_writeEditTo {st : St} (h : keysInv st) (fname sLine : String) (corId : Nat)
    (edit : Edit) : keysInv (writeEditTo st fname sLine corId edit) := by
  intro kv hkv
  obtain ⟨v, hv, _⟩ := mem_updateA kv hkv
  exact h (kv.1, v) hv

lemma keysInv_insert {st : St} (h : keysInv st) {fname label : String}
    (hl : ∃ c, (label, c) ∈ st.errorCount) (he : fname = replaceColons label) :
    keysInv { st with outFiles := st.outFiles ++ [(fname, freshHandles fname)] } := by
  intro kv hkv
  rcases List.mem_append.mp hkv with hm | hm
  · exact h kv hm
  · obtain ⟨c, hc⟩ := hl
    rw [List.mem_singleton] at hm
    subst hm
    exact ⟨label, c, hc, he⟩

lemma blocksInv_writeEditTo {R : List String × String → Prop} {st : St} (h : blocksInv R st)
    {sLine : String} (ts : List String) (hs : sLine = joinSp ("S" :: ts)) (fname : String)
    (corId : Nat) (edit : Edit) (hR : R (ts, edit.toM2 corId)) :
    blocksInv R (writeEditTo st fname sLine corId edit) := by
  intro kv hkv
  obtain ⟨v, hv, hor⟩ := mem_updateA kv hkv
  obtain ⟨blocks, hb, hbR⟩ := h (kv.1, v) hv
  rcases hor with h1 | h1
  · exact ⟨blocks, by rw [h1]; exact hb, hbR⟩
  · refine ⟨blocks ++ [(ts, edit.toM2 corId)], ?_, ?_⟩
    · rw [h1]
      simp [writeLines, hs]
      exact hb
    · intro b hbm
      rcases List.mem_append.mp hbm with hm | hm
      · exact hbR b hm
      · rw [List.mem_singleton] at hm
        subst hm
        exact hR

lemma blocksInv_insert {R : List String × String → Prop} {st : St} (h : blocksInv R st)
    (fname : String) :
    blocksInv R { st with outFiles := st.outFiles ++ [(fname, freshHandles fname)] } := by
  intro kv hkv
  rcases List.mem_append.mp hkv with hm | hm
  · exact h kv hm
  · rw [List.mem_singleton] at hm
    subst hm
    exact ⟨[], rfl, fun b hb => absurd hb (List.not_mem_nil b)⟩

/-! Case analysis of one iteration of the edit loop. -/

lemma processEdit_cases (orc : Oracle) (sLine : String) (corId : Nat) (st : St) (edit : Edit) :
    (∃ h3, lookupA st.outFiles (replaceColons edit.type) = some h3 ∧
        processEdit orc sLine corId st edit =
          .ok (writeEditTo { st with errorCount := bumpCount st.errorCount edit.type }
            (replaceColons edit.type) sLine corId edit)) ∨
    (∃ st2 : St, st2.errorCount = bumpCount st.errorCount edit.type ∧
        st2.outFiles = st.outFiles ∧ st2.log = st.log ∧ st.dirs ⊆ st2.dirs ∧
        outDir (replaceColons edit.type) ∈ st2.dirs ∧
        lookupA st.outFiles (replaceColons edit.type) = none ∧
        ((orc.openFails (filePath (replaceColons edit.type) ++ ".m2") = true ∨
          orc.openFails (filePath (replaceColons edit.type) ++ ".src") = true ∨
          orc.openFails (filePath (replaceColons edit.type) ++ ".trg") = true) ∧
          processEdit orc sLine corId st edit = .error st2 ∨
         processEdit orc sLine corId st edit =
           .ok (writeEditTo
             { st2 with outFiles := st2.outFiles ++
                 [(replaceColons edit.type, freshHandles (replaceColons edit.type))] }
             (replaceColons edit.type) sLine corId edit))) := by
  cases hlk : lookupA st.outFiles (replaceColons edit.type) with
  | some h3 =>
    have hpe : processEdit orc sLine corId st edit =
        .ok (writeEditTo { st with errorCount := bumpCount st.errorCount edit.type }
          (replaceColons edit.type) sLine corId edit) := by
      simp only [processEdit, hlk]
    exact Or.inl ⟨h3, rfl, hpe⟩
  | none =>
    refine Or.inr ?_
    by_cases hc : st.dirs.contains (outDir (replaceColons edit.type)) = true
    case pos =>
      have hmem : outDir (replaceColons edit.type) ∈ st.dirs := by simpa using hc
      by_cases h1 : orc.openFails (filePath (replaceColons edit.type) ++ ".m2") = true
      case pos =>
        have hpe : processEdit orc sLine corId st edit =
            .error { st with errorCount := bumpCount st.errorCount edit.type } := by
          simp only [processEdit, hlk]
          rw [if_pos h1, if_pos hc]
        exact ⟨{ st with errorCount := bumpCount st.errorCount edit.type },
          rfl, rfl, rfl, List.Subset.refl _, hmem, rfl, Or.inl ⟨Or.inl h1, hpe⟩⟩
      case neg =>
      by_cases h2 : orc.openFails (filePath (replaceColons edit.type) ++ ".src") = true
      case pos =>
        have hpe : processEdit orc sLine corId st edit =
            .error { st with errorCount := bumpCount st.errorCount edit.type } := by
          simp only [processEdit, hlk]
          rw [if_neg h1, if_pos h2, if_pos hc]
        exact ⟨{ st with errorCount := bumpCount st.errorCount edit.type },
          rfl, rfl, rfl, List.Subset.refl _, hmem, rfl, Or.inl ⟨Or.inr (Or.inl h2), hpe⟩⟩
      case neg =>
      by_cases h3 : orc.openFails (filePath (replaceColons edit.type) ++ ".trg") = true
      case pos =>
        have hpe : processEdit orc sLine corId st edit =
            .error { st with errorCount := bumpCount st.errorCount edit.type } := by
          simp only [processEdit, hlk]
          rw [if_neg h1, if_neg h2, if_pos h3, if_pos hc]
        exact ⟨{ st with errorCount := bumpCount st.errorCount edit.type },
          rfl, rfl, rfl, List.Subset.refl _, hmem, rfl, Or.inl ⟨Or.inr (Or.inr h3), hpe⟩⟩
      case neg =>
        have hpe : processEdit orc sLine corId st edit =
            .ok (writeEditTo
              { st with
                  errorCount := bumpCount st.errorCount edit.type,
                  outFiles := st.outFiles ++
                    [(replaceColons edit.type, freshHandles (replaceColons edit.type))] }
              (replaceColons edit.type) sLine corId edit) := by
          simp only [processEdit, hlk]
          rw [if_neg h1, if_neg h2, if_neg h3, if_pos hc]
        exact ⟨{ st with errorCount := bumpCount st.errorCount edit.type },
          rfl, rfl, rfl, List.Subset.refl _, hmem, rfl, Or.inr hpe⟩
    case neg =>
      have hmem : outDir (replaceColons edit.type) ∈
          st.dirs ++ [outDir (replaceColons edit.type)] :=
        List.mem_append_right _ (List.mem_singleton.mpr rfl)
      by_cases h1 : orc.openFails (filePath (replaceColons edit.type) ++ ".m2") = true
      case pos =>
        have hpe : processEdit orc sLine corId st edit =
            .error { st with
                errorCount := bumpCount st.errorCount edit.type,
                dirs := st.dirs ++ [outDir (replaceColons edit.type)] } := by
          simp only [processEdit, hlk]
          rw [if_pos h1, if_neg hc]
        exact ⟨{ st with
            errorCount := bumpCount st.errorCount edit.type,
            dirs := st.dirs ++ [outDir (replaceColons edit.type)] },
          rfl, rfl, rfl, List.subset_append_left _ _, hmem, rfl, Or.inl ⟨Or.inl h1, hpe⟩⟩
      case neg =>
      by_cases h2 : orc.openFails (filePath (replaceColons edit.type) ++ ".src") = true
      case pos =>
        have hpe : processEdit orc sLine corId st edit =
            .error { st with
                errorCount := bumpCount st.errorCount edit.type,
                dirs := st.dirs ++ [outDir (replaceColons edit.type)] } := by
          simp only [processEdit, hlk]
          rw [if_neg h1, if_pos h2, if_neg hc]
        exact ⟨{ st with
            errorCount := bumpCount st.errorCount edit.type,
            dirs := st.dirs ++ [outDir (replaceColons edit.type)] },
          rfl, rfl, rfl, List.subset_append_left _ _, hmem, rfl,
          Or.inl ⟨Or.inr (Or.inl h2), hpe⟩⟩
      case neg =>
      by_cases h3 : orc.openFails (filePath (replaceColons edit.type) ++ ".trg") = true
      case pos =>
        have hpe : processEdit orc sLine corId st edit =
            .error { st with
                errorCount := bumpCount st.errorCount edit.type,
                dirs := st.dirs ++ [outDir (replaceColons edit.type)] } := by
          simp only [processEdit, hlk]
          rw [if_neg h1, if_neg h2, if_pos h3, if_neg hc]
        exact ⟨{ st with
            errorCount := bumpCount st.errorCount edit.type,
            dirs := st.dirs ++ [outDir (replaceColons edit.type)] },
          rfl, rfl, rfl, List.subset_append_left _ _, hmem, rfl,
          Or.inl ⟨Or.inr (Or.inr h3), hpe⟩⟩
      case neg =>
        have hpe : processEdit orc sLine corId st edit =
            .ok (writeEditTo
              { st with
                  errorCount := bumpCount st.errorCount edit.type,
                  outFiles := st.outFiles ++
                    [(replaceColons edit.type, freshHandles (replaceColons edit.type))],
                  dirs := st.dirs ++ [outDir (replaceColons edit.type)] }
              (replaceColons edit.type) sLine corId edit) := by
          simp only [processEdit, hlk]
          rw [if_neg h1, if_neg h2, if_neg h3, if_neg hc]
        exact ⟨{ st with
            errorCount := bumpCount st.errorCount edit.type,
            dirs := st.dirs ++ [outDir (replaceColons edit.type)] },
          rfl, rfl, rfl, List.subset_append_left _ _, hmem, rfl, Or.inr hpe⟩

/-! Consequences of the case analysis: each state invariant is preserved by
one iteration of the edit loop, whether it completes or raises. -/

lemma lookupA_writeEditTo (st : St) (fname k sLine : String) (corId : Nat) (edit : Edit) :
    lookupA (writeEditTo st fname sLine corId edit).outFiles k =
      if k = fname then
        (lookupA st.outFiles k).map
          (fun h3 => writeLines h3 sLine (edit.toM2 corId) edit.toSrcTrg.1 edit.toSrcTrg.2)
      else lookupA st.outFiles k :=
  lookupA_updateA _ _ _ _

lemma processEdit_structInv (orc : Oracle) (sLine : String) (corId : Nat) (st : St) (edit : Edit)
    (h : structInv st) : structInv (stOf (processEdit orc sLine corId st edit)) := by
  rcases processEdit_cases orc sLine corId st edit with
    ⟨h3, hlk, hpe⟩ | ⟨st2, hec, hof, hlog, hsub, hmem, hlk, hrest⟩
  · rw [hpe]
    exact structInv_writeEditTo h _ _ _ _
  · have hst2 : structInv st2 := by
      intro kv hkv
      rw [hof] at hkv
      obtain ⟨p1, p2, p3, hd⟩ := h kv hkv
      exact ⟨p1, p2, p3, hsub hd⟩
    rcases hrest with ⟨_, hpe⟩ | hpe
    · rw [hpe]
      exact hst2
    · rw [hpe]
      exact structInv_writeEditTo (structInv_insert hst2 _ hmem) _ _ _ _

lemma processEdit_keysInv (orc : Oracle) (sLine : String) (corId : Nat) (st : St) (edit : Edit)
    (h : keysInv st) : keysInv (stOf (processEdit orc sLine corId st edit)) := by
  rcases processEdit_cases orc sLine corId st edit with
    ⟨h3, hlk, hpe⟩ | ⟨st2, hec, hof, hlog, hsub, hmem, hlk, hrest⟩
  · rw [hpe]
    exact keysInv_writeEditTo (keysInv_bump h edit.type) _ _ _ _
  · have hst2 : keysInv st2 := by
      intro kv hkv
      rw [hof] at hkv
      obtain ⟨label, c, hc, hke⟩ := h kv hkv
      obtain ⟨c2, hc2⟩ := mem_bumpCount_of_mem edit.type hc
      exact ⟨label, c2, by rw [hec]; exact hc2, hke⟩
    rcases hrest with ⟨_, hpe⟩ | hpe
    · rw [hpe]
      exact hst2
    · rw [hpe]
      refine keysInv_writeEditTo (keysInv_insert hst2 ?_ rfl) _ _ _ _
      rw [hec]
      exact mem_bumpCount_self _ _

lemma processEdit_blocksInv (R : List String × String → Prop) (orc : Oracle) {sLine : String}
    (ts : List String) (hs : sLine = joinSp ("S" :: ts)) (corId : Nat) (st : St) (edit : Edit)
    (hR : R (ts, edit.toM2 corId)) (h : blocksInv R st) :
    blocksInv R (stOf (processEdit orc sLine corId st edit)) := by
  rcases processEdit_cases orc sLine corId st edit with
    ⟨h3, hlk, hpe⟩ | ⟨st2, hec, hof, hlog, hsub, hmem, hlk, hrest⟩
  · rw [hpe]
    exact blocksInv_writeEditTo h ts hs _ _ _ hR
  · have hst2 : blocksInv R st2 := by
      intro kv hkv
      rw [hof] at hkv
      exact h kv hkv
    rcases hrest with ⟨_, hpe⟩ | hpe
    · rw [hpe]
      exact hst2
    · rw [hpe]
      exact blocksInv_writeEditTo (blocksInv_insert hst2 _) ts hs _ _ _ hR

lemma processEdit_lookup_isSome (orc : Oracle) (horc : ∀ p, orc.openFails p = false)
    (sLine : String) (corId : Nat) (st : St) (edit : Edit) (k : String)
    (hk : (lookupA st.outFiles k).isSome = true ∨ k = replaceColons edit.type) :
    (lookupA (stOf (processEdit orc sLine corId st edit)).outFiles k).isSome = true := by
  rcases processEdit_cases orc sLine corId st edit with
    ⟨h3, hlk, hpe⟩ | ⟨st2, hec, hof, hlog, hsub, hmem, hlk, hrest⟩
  · rw [hpe]
    show (lookupA (writeEditTo { st with errorCount := bumpCount st.errorCount edit.type }
      (replaceColons edit.type) sLine corId edit).outFiles k).isSome = true
    rw [lookupA_writeEditTo]
    by_cases hkf : k = replaceColons edit.type
    · rw [if_pos hkf]
      subst hkf
      show ((lookupA st.outFiles (replaceColons edit.type)).map _).isSome = true
      rw [hlk]
      rfl
    · rw [if_neg hkf]
      rcases hk with hk | hk
      · exact hk
      · exact absurd hk hkf
  · rcases hrest with ⟨hfail, _⟩ | hpe
    · rcases hfail with hf | hf | hf <;> rw [horc] at hf <;> exact absurd hf (by simp)
    · rw [hpe]
      show (lookupA (writeEditTo
        { st2 with outFiles := st2.outFiles ++
            [(replaceColons edit.type, freshHandles (replaceColons edit.type))] }
        (replaceColons edit.type) sLine corId edit).outFiles k).isSome = true
      rw [lookupA_writeEditTo]
      by_cases hkf : k = replaceColons edit.type
      · rw [if_pos hkf]
        subst hkf
        show ((lookupA (st2.outFiles ++ [(replaceColons edit.type,
          freshHandles (replaceColons edit.type))]) (replaceColons edit.type)).map _).isSome = true
        rw [lookupA_append, hof, hlk]
        simp [lookupA_cons]
      · rw [if_neg hkf]
        show (lookupA (st2.outFiles ++ [(replaceColons edit.type,
          freshHandles (replaceColons edit.type))]) k).isSome = true
        rw [lookupA_append, hof]
        rcases hk with hk | hk
        · obtain ⟨v, hv⟩ := Option.isSome_iff_exists.mp hk
          rw [hv]
          rfl
        · exact absurd hk hkf

lemma processEdit_obsInv (orc : Oracle) (horc : ∀ p, orc.openFails p = false)
    (sLine : String) (corId : Nat) (st : St) (edit : Edit) (h : obsInv st) :
    obsInv (stOf (processEdit orc sLine corId st edit)) := by
  have hec : (stOf (processEdit orc sLine corId st edit)).errorCount =
      bumpCount st.errorCount edit.type := by
    rcases processEdit_cases orc sLine corId st edit with
      ⟨h3, hlk, hpe⟩ | ⟨st2, hec, hof, hlog, hsub, hmem, hlk, hrest⟩
    · rw [hpe]
      rfl
    · rcases hrest with ⟨_, hpe⟩ | hpe
      · rw [hpe]
        exact hec
      · rw [hpe]
        exact hec
  intro label hlabel
  rw [hec] at hlabel
  obtain ⟨c, hc⟩ := hlabel
  rcases mem_bumpCount hc with hl | ⟨c2, hc2⟩
  · exact processEdit_lookup_isSome orc horc sLine corId st edit _ (Or.inr (by rw [hl]))
  · exact processEdit_lookup_isSome orc horc sLine corId st edit _ (Or.inl (h label ⟨c2, hc2⟩))

/-! Propagation of an invariant through the loops of the driver.  The step
hypothesis receives the shape of the `S` line actually passed by
`process_sentences`, and the log hypothesis covers the two `except`
handlers. -/

lemma processEdits_preserve (P : St → Prop) (orc : Oracle) (sLine : String) (corId : Nat)
    (hstep : ∀ st e, P st → P (stOf (processEdit orc sLine corId st e))) :
    ∀ es st, P st → P (stOf (processEdits orc sLine corId st es))
  | [], _, h => h
  | e :: es, st, h => by
    rw [processEdits]
    cases hpe : processEdit orc sLine corId st e with
    | ok st1 =>
      have h1 := hstep st e h
      rw [hpe] at h1
      exact processEdits_preserve P orc sLine corId hstep es st1 h1
    | error st1 =>
      have h1 := hstep st e h
      rw [hpe] at h1
      exact h1

lemma processCor_preserve (P : St → Prop) (orc : Oracle) (sLine : String) (corId : Nat)
    (cor : CorResult) (st : St)
    (hstep : ∀ st e, P st → P (stOf (processEdit orc sLine corId st e)))
    (hlog : ∀ st msg, P st → P { st with log := st.log ++ [msg] })
    (h : P st) : P (processCor orc sLine st corId cor) := by
  cases cor with
  | alignFail => exact hlog st _ h
  | edits es =>
    rw [processCor]
    cases hpe : processEdits orc sLine corId st es with
    | ok st1 =>
      have h1 := processEdits_preserve P orc sLine corId hstep es st h
      rw [hpe] at h1
      exact h1
    | error st1 =>
      have h1 := processEdits_preserve P orc sLine corId hstep es st h
      rw [hpe] at h1
      exact hlog st1 _ h1

lemma foldl_processCor_preserve (P : St → Prop) (orc : Oracle) (sLine : String)
    (hstep : ∀ corId st e, P st → P (stOf (processEdit orc sLine corId st e)))
    (hlog : ∀ st msg, P st → P { st with log := st.log ++ [msg] }) :
    ∀ (l : List (Nat × CorResult)) (st : St), P st →
      P (l.foldl (fun s ic => processCor orc sLine s ic.1 ic.2) st)
  | [], _, h => h
  | ic :: l, st, h => by
    rw [List.foldl_cons]
    exact foldl_processCor_preserve P orc sLine hstep hlog l _
      (processCor_preserve P orc sLine ic.1 ic.2 st (hstep ic.1) hlog h)

lemma processGroup_preserve (P : St → Prop) (orc : Oracle) (g : GroupResult) (st : St)
    (hstep : ∀ sLine ts corId st e, sLine = joinSp ("S" :: ts) → P st →
      P (stOf (processEdit orc sLine corId st e)))
    (hlog : ∀ st msg, P st → P { st with log := st.log ++ [msg] })
    (h : P st) : P (processGroup orc st g) := by
  cases g with
  | parseFail => exact hlog st _ h
  | parsed origSents cors =>
    show P (processSentences orc st origSents cors)
    simp only [processSentences]
    exact foldl_processCor_preserve P orc _
      (fun corId st e hP => hstep _ (origSents.flatten.map (fun w => w.text)) corId st e rfl hP)
      hlog cors.enum st h

lemma runLoop_preserve (P : St → Prop) (orc : Oracle)
    (hstep : ∀ sLine ts corId st e, sLine = joinSp ("S" :: ts) → P st →
      P (stOf (processEdit orc sLine corId st e)))
    (hlog : ∀ st msg, P st → P { st with log := st.log ++ [msg] }) :
    ∀ (groups : List GroupResult) (st : St), P st → P (runLoop orc groups st)
  | [], _, h => h
  | g :: gs, st, h => by
    show P (runLoop orc gs (processGroup orc st g))
    exact runLoop_preserve P orc hstep hlog gs _
      (processGroup_preserve P orc g st hstep hlog h)

/-! Propagation of the block-structure invariant, threading the provenance of
each written block: the `S` line passed to `processEdit` is built by
`process_sentences` from the original document of the very group whose
annotate call produced the edit. -/

lemma processEdits_blocksInv (R : List String × String → Prop) (orc : Oracle) {sLine : String}
    (ts : List String) (hs : sLine = joinSp ("S" :: ts)) (corId : Nat) :
    ∀ (es : List Edit) (st : St), (∀ e ∈ es, R (ts, e.toM2 corId)) → blocksInv R st →
      blocksInv R (stOf (processEdits orc sLine corId st es))
  | [], _, _, h => h
  | e :: es, st, hR, h => by
    rw [processEdits]
    cases hpe : processEdit orc sLine corId st e with
    | ok st1 =>
      have h1 := processEdit_blocksInv R orc ts hs corId st e (hR e (List.mem_cons_self _ _)) h
      rw [hpe] at h1
      exact processEdits_blocksInv R orc ts hs corId es st1
        (fun e2 he2 => hR e2 (List.mem_cons_of_mem _ he2)) h1
    | error st1 =>
      have h1 := processEdit_blocksInv R orc ts hs corId st e (hR e (List.mem_cons_self _ _)) h
      rw [hpe] at h1
      exact h1

lemma processCor_blocksInv (R : List String × String → Prop) (orc : Oracle) {sLine : String}
    (ts : List String) (hs : sLine = joinSp ("S" :: ts)) (corId : Nat) (cor : CorResult)
    (st : St) (hR : ∀ es, cor = CorResult.edits es → ∀ e ∈ es, R (ts, e.toM2 corId))
    (h : blocksInv R st) : blocksInv R (processCor orc sLine st corId cor) := by
  cases cor with
  | alignFail => exact h
  | edits es =>
    rw [processCor]
    cases hpe : processEdits orc sLine corId st es with
    | ok st1 =>
      have h1 := processEdits_blocksInv R orc ts hs corId es st (hR es rfl) h
      rw [hpe] at h1
      exact h1
    | error st1 =>
      have h1 := processEdits_blocksInv R orc ts hs corId es st (hR es rfl) h
      rw [hpe] at h1
      exact h1

lemma foldl_processCor_blocksInv (R : List String × String → Prop) (orc : Oracle)
    {sLine : String} (ts : List String) (hs : sLine = joinSp ("S" :: ts)) :
    ∀ (l : List (Nat × CorResult)) (st : St),
      (∀ corId es e, (corId, CorResult.edits es) ∈ l → e ∈ es → R (ts, e.toM2 corId)) →
      blocksInv R st →
      blocksInv R (l.foldl (fun s ic => processCor orc sLine s ic.1 ic.2) st)
  | [], _, _, h => h
  | ic :: l, st, hR, h => by
    rw [List.foldl_cons]
    refine foldl_processCor_blocksInv R orc ts hs l _
      (fun corId es e hm he => hR corId es e (List.mem_cons_of_mem _ hm) he) ?_
    refine processCor_blocksInv R orc ts hs ic.1 ic.2 st ?_ h
    intro es hes e he
    apply hR ic.1 es e _ he
    rw [← hes]
    exact List.mem_cons_self _ _

lemma processGroup_blocksInv (R : List String × String → Prop) (orc : Oracle) (g : GroupResult)
    (st : St)
    (hR : ∀ origSents cors corId es e, g = GroupResult.parsed origSents cors →
      (corId, CorResult.edits es) ∈ cors.enum → e ∈ es →
      R (origSents.flatten.map (fun w => w.text), e.toM2 corId))
    (h : blocksInv R st) : blocksInv R (processGroup orc st g) := by
  cases g with
  | parseFail => exact h
  | parsed origSents cors =>
    show blocksInv R (processSentences orc st origSents cors)
    simp only [processSentences]
    exact foldl_processCor_blocksInv R orc (origSents.flatten.map (fun w => w.text)) rfl
      cors.enum st (fun corId es e hm he => hR origSents cors corId es e rfl hm he) h

lemma runLoop_blocksInv (R : List String × String → Prop) (orc : Oracle) :
    ∀ (groups : List GroupResult) (st : St),
      (∀ origSents cors corId es e, GroupResult.parsed origSents cors ∈ groups →
        (corId, CorResult.edits es) ∈ cors.enum → e ∈ es →
        R (origSents.flatten.map (fun w => w.text), e.toM2 corId)) →
      blocksInv R st → blocksInv R (runLoop orc groups st)
  | [], _, _, h => h
  | g :: gs, st, hR, h => by
    show blocksInv R (runLoop orc gs (processGroup orc st g))
    refine runLoop_blocksInv R orc gs _
      (fun o c ci es e hm hce he => hR o c ci es e (List.mem_cons_of_mem _ hm) hce he) ?_
    refine processGroup_blocksInv R orc g st ?_ h
    intro o c ci es e hg hce he
    apply hR o c ci es e _ hce he
    rw [hg]
    exact List.mem_cons_self _ _

end Errant

/-! ## Claim theorems -/

namespace Errant

/-- Claim C4: the stemmer checks candidate suffixes longest-first — suffix
lengths are tried in the fixed decreasing order 5, 4, 3, 2, 1, and the first
length whose guard holds and whose suffix list contains a suffix of the word
determines the result, so a longer applicable suffix is always stripped in
preference to any shorter one.  Stated as a refinement: `stem`, translated
from the source loop, coincides with `stemClaimed`, written from the claim's
wording, on every word. -/
theorem stem_longest_first (word : List Char) : stem word = stemClaimed word := by
  rw [stem, stemAux_eq_find, stemClaimed]

/-- Claim C5: the minimum-remaining-length guard — a length-`L` suffix is
stripped only when the word's length exceeds `L + 1`; consequently words of
length at most 2 are returned unchanged, and whenever stripping occurs the
result keeps at least 2 characters. -/
theorem stem_min_remaining_guard (word : List Char) :
    (word.length ≤ 2 → stem word = word) ∧
    (stem word ≠ word →
      ∃ L, stem word = word.take (word.length - L) ∧ word.length > L + 1 ∧
        2 ≤ (stem word).length) := by
  constructor
  · intro hshort
    rw [stem, stemAux_eq_find]
    have hnone : ([5, 4, 3, 2, 1] : List Nat).find? (fun L =>
        decide (word.length > L + 1) && (suffixes L).any (fun suf => endsWith word suf)) =
        none := by
      rw [List.find?_eq_none]
      intro L hL
      have hL1 : 1 ≤ L := by fin_cases hL <;> omega
      have : ¬ word.length > L + 1 := by omega
      simp [this]
    rw [hnone]
  · intro hne
    cases hf : ([5, 4, 3, 2, 1] : List Nat).find? (fun L =>
        decide (word.length > L + 1) && (suffixes L).any (fun suf => endsWith word suf)) with
    | none =>
      exfalso
      apply hne
      rw [stem, stemAux_eq_find, hf]
    | some L =>
      obtain ⟨hg, s, _, _, _, hstem⟩ := stem_of_find?_some hf
      refine ⟨L, hstem, hg, ?_⟩
      rw [hstem, List.length_take]
      omega

/-- Witness for C5: the two-character word `अब` is returned unchanged, and for
`लडकियाँ` (7 characters, stripped) the guard and 2-character lower bound are
realized. -/
theorem stem_min_remaining_guard_witness :
    stem "अब".data = "अब".data ∧
    ∃ L, stem "लडकियाँ".data = "लडकियाँ".data.take ("लडकियाँ".data.length - L) ∧
      "लडकियाँ".data.length > L + 1 ∧ 2 ≤ (stem "लडकियाँ".data).length :=
  ⟨(stem_min_remaining_guard "अब".data).1 (by decide),
   (stem_min_remaining_guard "लडकियाँ".data).2 (by decide)⟩

/-- Claim C9: `stem word` is a prefix of `word`; either the word is returned
unchanged, or exactly `L` trailing characters are removed for some length `L`
keyed in the suffix table, the removed trailing substring being a length-`L`
table entry, so that `stem word` concatenated with the matched table suffix
reconstructs the original word. -/
theorem stem_prefix_reconstruct (word : List Char) :
    stem word <+: word ∧
    (stem word = word ∨
      ∃ L s, L ∈ ([5, 4, 3, 2, 1] : List Nat) ∧ s ∈ suffixes L ∧ s.length = L ∧
        stem word ++ s = word ∧ (stem word).length = word.length - L) := by
  cases hf : ([5, 4, 3, 2, 1] : List Nat).find? (fun L =>
      decide (word.length > L + 1) && (suffixes L).any (fun suf => endsWith word suf)) with
  | none =>
    have heq : stem word = word := by rw [stem, stemAux_eq_find, hf]
    refine ⟨?_, Or.inl heq⟩
    rw [heq]
  | some L =>
    obtain ⟨hg, s, hs_mem, hs_len, hrec, hstem⟩ := stem_of_find?_some hf
    have hmem : L ∈ ([5, 4, 3, 2, 1] : List Nat) := List.mem_of_find?_eq_some hf
    have hpre : stem word <+: word := ⟨s, hrec⟩
    refine ⟨hpre, Or.inr ⟨L, s, hmem, hs_mem, hs_len, hrec, ?_⟩⟩
    rw [hstem, List.length_take]
    omega

/-- Claim C1 is violated by the code: when opening the per-type `.m2` file
raises `OSError` at the first `R:DET` edit, the run does not abort — the
exception is swallowed by the `except Exception` handler of
`process_sentences` (which logs `Failed to align texts`), the run completes
normally, the edit's annotation data is dropped (no output entry exists),
and the histogram still counts the edit. -/
theorem io_failure_caught_run_completes :
    runMain orcFailM2 [g1] =
      ({ errorCount := [("R:DET", 1)], outFiles := [], dirs := ["out/R_DET"],
         log := ["Failed to align texts"] }, "R:DET\t1") := by
  rfl

/-- Claim C2 is violated by the code: the histogram writer appends no
newline, so a run observing two distinct labels produces a single
concatenated line rather than one `<label>\t<count>` line per label. -/
theorem histogram_single_concatenated_line :
    (runMain orcOk [g2]).1.errorCount = [("R:DET", 1), ("R:VERB", 1)] ∧
    (runMain orcOk [g2]).2 = "R:DET\t1R:VERB\t1" ∧
    (runMain orcOk [g2]).2.data.contains '\n' = false :=
  ⟨rfl, rfl, rfl⟩

/-- Claim C7: a parse failure in one group of parallel lines is caught inside
`main`'s loop and logged (`Failed to process line`), and the remaining groups
are processed exactly as they would be from the logged state — one bad line
group is never fatal to the run. -/
theorem parse_failure_logged_not_fatal (orc : Oracle) (pre post : List GroupResult) (st : St) :
    runLoop orc (pre ++ GroupResult.parseFail :: post) st =
      runLoop orc post
        { runLoop orc pre st with
            log := (runLoop orc pre st).log ++ ["Failed to process line"] } := by
  simp only [runLoop, List.foldl_append, List.foldl_cons]
  rfl

/-- Claim C6: per-type handles are opened lazily — at any point of the loop,
an output entry exists only for (the sanitized name of) a label whose first
edit has already been recorded in the error counter — and at the end of the
run every stored handle is closed, for every environment (including ones
where parses, alignments, or opens raise). -/
theorem handles_closed_and_lazily_opened (orc : Oracle) (groups : List GroupResult) :
    (∀ kv, kv ∈ (runMain orc groups).1.outFiles →
      kv.2.1.isOpen = false ∧ kv.2.2.1.isOpen = false ∧ kv.2.2.2.isOpen = false) ∧
    (∀ kv, kv ∈ (runLoop orc groups initSt).outFiles →
      ∃ label c, (label, c) ∈ (runLoop orc groups initSt).errorCount ∧
        kv.1 = replaceColons label) := by
  constructor
  · intro kv hkv
    have hof : (runMain orc groups).1.outFiles =
        (runLoop orc groups initSt).outFiles.map (fun kv => (kv.1, closeTriple kv.2)) := rfl
    rw [hof] at hkv
    obtain ⟨kv0, _, rfl⟩ := List.mem_map.mp hkv
    exact ⟨rfl, rfl, rfl⟩
  · refine runLoop_preserve keysInv orc ?_ ?_ groups initSt ?_
    · exact fun sLine ts corId st e _ h => processEdit_keysInv orc sLine corId st e h
    · exact fun st msg h => h
    · intro kv0 hkv0
      simp [initSt] at hkv0

/-- Witness for C6 at the concrete run on `g1`: the theorem applied to the
`R_DET` entry, closed at the end of the run and present during the loop only
with its label counted. -/
theorem handles_closed_and_lazily_opened_witness :
    (kvDET.2.1.isOpen = false ∧ kvDET.2.2.1.isOpen = false ∧ kvDET.2.2.2.isOpen = false) ∧
    (∃ label c, (label, c) ∈ (runLoop orcOk [g1] initSt).errorCount ∧
      kvDETopen.1 = replaceColons label) :=
  ⟨(handles_closed_and_lazily_opened orcOk [g1]).1 kvDET (by decide),
   (handles_closed_and_lazily_opened orcOk [g1]).2 kvDETopen (by decide)⟩

/-- Claim C8: at the end of any run, the lines of every per-type `.m2` file
decompose into blocks of an `S` source line, exactly one annotation line, and
a terminating blank line, where each block's `S` line is `"S"` space-joined
with the token texts of the original document of the very group whose
annotate call produced that block's edit (the annotation line being that
edit's `to_m2(cor_id)` rendering for its corrector index).  So every
annotation line is immediately preceded by the source line of its original
sentence, and every block ends with a blank line. -/
theorem m2_files_block_structured (orc : Oracle) (groups : List GroupResult) :
    ∀ kv, kv ∈ (runMain orc groups).1.outFiles →
      ∃ blocks : List (List String × String),
        kv.2.1.lines = blocks.flatMap (fun b => [joinSp ("S" :: b.1), b.2, ""]) ∧
        ∀ b ∈ blocks, ∃ origSents cors,
          GroupResult.parsed origSents cors ∈ groups ∧
          b.1 = origSents.flatten.map (fun w => w.text) ∧
          ∃ corId es e, (corId, CorResult.edits es) ∈ cors.enum ∧ e ∈ es ∧
            b.2 = e.toM2 corId := by
  intro kv hkv
  have hB : blocksInv (fun b => ∃ origSents cors,
      GroupResult.parsed origSents cors ∈ groups ∧
      b.1 = origSents.flatten.map (fun w => w.text) ∧
      ∃ corId es e, (corId, CorResult.edits es) ∈ cors.enum ∧ e ∈ es ∧
        b.2 = e.toM2 corId) (runLoop orc groups initSt) := by
    refine runLoop_blocksInv _ orc groups initSt ?_ ?_
    · intro o c ci es e hg hce he
      exact ⟨o, c, hg, rfl, ci, es, e, hce, he, rfl⟩
    · intro kv0 hkv0
      simp [initSt] at hkv0
  have hof : (runMain orc groups).1.outFiles =
      (runLoop orc groups initSt).outFiles.map (fun kv => (kv.1, closeTriple kv.2)) := rfl
  rw [hof] at hkv
  obtain ⟨kv0, hkv0, rfl⟩ := List.mem_map.mp hkv
  obtain ⟨blocks, hb, hR⟩ := hB kv0 hkv0
  exact ⟨blocks, hb, hR⟩

/-- Witness for C8 at the concrete run on `g1`: the `R_DET` `.m2` file
decomposes into blocks whose `S` lines carry the original document's tokens
and whose annotation lines come from that group's edits. -/
theorem m2_files_block_structured_witness :
    ∃ blocks : List (List String × String),
      kvDET.2.1.lines = blocks.flatMap (fun b => [joinSp ("S" :: b.1), b.2, ""]) ∧
      ∀ b ∈ blocks, ∃ origSents cors,
        GroupResult.parsed origSents cors ∈ [g1] ∧
        b.1 = origSents.flatten.map (fun w => w.text) ∧
        ∃ corId es e, (corId, CorResult.edits es) ∈ cors.enum ∧ e ∈ es ∧
          b.2 = e.toM2 corId :=
  m2_files_block_structured orcOk [g1] kvDET (by decide)

/-- Claim C3: in a run whose opens never fail, every observed error-type
label has, at the end of the run, an output entry under its sanitized name
holding the `.m2`, `.src` and `.trg` files at the paths derived from it,
inside the created directory `out/<sanitized label>`. -/
theorem per_label_output_files (orc : Oracle) (groups : List GroupResult) (label : String)
    (horc : ∀ p, orc.openFails p = false)
    (hobs : ∃ c, (label, c) ∈ (runMain orc groups).1.errorCount) :
    (∃ h3, lookupA (runMain orc groups).1.outFiles (replaceColons label) = some h3 ∧
      h3.1.path = filePath (replaceColons label) ++ ".m2" ∧
      h3.2.1.path = filePath (replaceColons label) ++ ".src" ∧
      h3.2.2.path = filePath (replaceColons label) ++ ".trg") ∧
    outDir (replaceColons label) ∈ (runMain orc groups).1.dirs := by
  have hS : structInv (runLoop orc groups initSt) := by
    refine runLoop_preserve structInv orc ?_ ?_ groups initSt ?_
    · exact fun sLine ts corId st e _ h => processEdit_structInv orc sLine corId st e h
    · exact fun st msg h => h
    · intro kv0 hkv0
      simp [initSt] at hkv0
  have hO : obsInv (runLoop orc groups initSt) := by
    refine runLoop_preserve obsInv orc ?_ ?_ groups initSt ?_
    · exact fun sLine ts corId st e _ h => processEdit_obsInv orc horc sLine corId st e h
    · exact fun st msg h => h
    · intro label0 hl0
      obtain ⟨c, hc⟩ := hl0
      simp [initSt] at hc
  have hec : (runMain orc groups).1.errorCount = (runLoop orc groups initSt).errorCount := rfl
  rw [hec] at hobs
  have hsome := hO label hobs
  obtain ⟨h3, hh3⟩ := Option.isSome_iff_exists.mp hsome
  have hmem := lookupA_mem hh3
  obtain ⟨p1, p2, p3, hd⟩ := hS _ hmem
  constructor
  · refine ⟨closeTriple h3, ?_, p1, p2, p3⟩
    have hof : (runMain orc groups).1.outFiles =
        (runLoop orc groups initSt).outFiles.map (fun kv => (kv.1, closeTriple kv.2)) := rfl
    rw [hof, lookupA_map_snd, hh3]
    rfl
  · exact hd

/-- Witness for C3 at the concrete run on `g1` with the observed label
`R:DET`. -/
theorem per_label_output_files_witness :
    (∃ h3, lookupA (runMain orcOk [g1]).1.outFiles (replaceColons "R:DET") = some h3 ∧
      h3.1.path = filePath (replaceColons "R:DET") ++ ".m2" ∧
      h3.2.1.path = filePath (replaceColons "R:DET") ++ ".src" ∧
      h3.2.2.path = filePath (replaceColons "R:DET") ++ ".trg") ∧
    outDir (replaceColons "R:DET") ∈ (runMain orcOk [g1]).1.dirs :=
  per_label_output_files orcOk [g1] "R:DET" (fun _ => rfl) ⟨1, by decide⟩

/-- Claim C10: when no open fails, processing one classified edit increments
the error-type tally of exactly that edit's type by one, appends exactly one
three-line block (source line, annotation line, blank line) to that type's
`.m2` file, and appends exactly one line each to that type's `.src` and
`.trg` files. -/
theorem per_edit_count_and_lines (orc : Oracle) (sLine : String) (corId : Nat) (st : St)
    (edit : Edit) (horc : ∀ p, orc.openFails p = false) :
    ∃ st1, processEdit orc sLine corId st edit = .ok st1 ∧
      countOf st1 edit.type = countOf st edit.type + 1 ∧
      (∀ t, t ≠ edit.type → countOf st1 t = countOf st t) ∧
      m2LinesOf st1 (replaceColons edit.type) =
        m2LinesOf st (replaceColons edit.type) ++ [sLine, edit.toM2 corId, ""] ∧
      srcLinesOf st1 (replaceColons edit.type) =
        srcLinesOf st (replaceColons edit.type) ++ [edit.toSrcTrg.1] ∧
      trgLinesOf st1 (replaceColons edit.type) =
        trgLinesOf st (replaceColons edit.type) ++ [edit.toSrcTrg.2] := by
  rcases processEdit_cases orc sLine corId st edit with
    ⟨h3, hlk, hpe⟩ | ⟨st2, hec, hof, hlog, hsub, hmem, hlk, hrest⟩
  · have hlkB : lookupA (writeEditTo { st with errorCount := bumpCount st.errorCount edit.type }
        (replaceColons edit.type) sLine corId edit).outFiles (replaceColons edit.type) =
        some (writeLines h3 sLine (edit.toM2 corId) edit.toSrcTrg.1 edit.toSrcTrg.2) := by
      rw [lookupA_writeEditTo, if_pos rfl]
      show (lookupA st.outFiles (replaceColons edit.type)).map _ = _
      rw [hlk]
      rfl
    refine ⟨_, hpe, ?_, ?_, ?_, ?_, ?_⟩
    · show (lookupA (bumpCount st.errorCount edit.type) edit.type).getD 0 =
        (lookupA st.errorCount edit.type).getD 0 + 1
      rw [lookupA_bumpCount_self]
      rfl
    · intro t ht
      show (lookupA (bumpCount st.errorCount edit.type) t).getD 0 =
        (lookupA st.errorCount t).getD 0
      rw [lookupA_bumpCount_ne _ _ _ ht]
    · simp only [m2LinesOf, hlkB, hlk, writeLines]
    · simp only [srcLinesOf, hlkB, hlk, writeLines]
    · simp only [trgLinesOf, hlkB, hlk, writeLines]
  · rcases hrest with ⟨hfail, _⟩ | hpe
    · rcases hfail with hf | hf | hf <;> rw [horc] at hf <;> exact absurd hf (by simp)
    · have hfresh : lookupA (st2.outFiles ++
          [(replaceColons edit.type, freshHandles (replaceColons edit.type))])
          (replaceColons edit.type) = some (freshHandles (replaceColons edit.type)) := by
        rw [lookupA_append, hof, hlk]
        simp [lookupA_cons]
      have hlkC : lookupA (writeEditTo
          { st2 with outFiles := st2.outFiles ++
              [(replaceColons edit.type, freshHandles (replaceColons edit.type))] }
          (replaceColons edit.type) sLine corId edit).outFiles (replaceColons edit.type) =
          some (writeLines (freshHandles (replaceColons edit.type)) sLine (edit.toM2 corId)
            edit.toSrcTrg.1 edit.toSrcTrg.2) := by
        rw [lookupA_writeEditTo, if_pos rfl]
        show (lookupA (st2.outFiles ++
          [(replaceColons edit.type, freshHandles (replaceColons edit.type))])
          (replaceColons edit.type)).map _ = _
        rw [hfresh]
        rfl
      refine ⟨_, hpe, ?_, ?_, ?_, ?_, ?_⟩
      · show (lookupA st2.errorCount edit.type).getD 0 =
          (lookupA st.errorCount edit.type).getD 0 + 1
        rw [hec, lookupA_bumpCount_self]
        rfl
      · intro t ht
        show (lookupA st2.errorCount t).getD 0 = (lookupA st.errorCount t).getD 0
        rw [hec, lookupA_bumpCount_ne _ _ _ ht]
      · simp only [m2LinesOf]
        rw [hlkC, hlk]
        simp [writeLines, freshHandles]
      · simp only [srcLinesOf]
        rw [hlkC, hlk]
        simp [writeLines, freshHandles]
      · simp only [trgLinesOf]
        rw [hlkC, hlk]
        simp [writeLines, freshHandles]

/-- Witness for C10: processing the concrete `R:DET` edit from the empty
driver state. -/
theorem per_edit_count_and_lines_witness :
    ∃ st1, processEdit orcOk "S a dog" 0 initSt edRD = .ok st1 ∧
      countOf st1 edRD.type = countOf initSt edRD.type + 1 ∧
      (∀ t, t ≠ edRD.type → countOf st1 t = countOf initSt t) ∧
      m2LinesOf st1 (replaceColons edRD.type) =
        m2LinesOf initSt (replaceColons edRD.type) ++ ["S a dog", edRD.toM2 0, ""] ∧
      srcLinesOf st1 (replaceColons edRD.type) =
        srcLinesOf initSt (replaceColons edRD.type) ++ [edRD.toSrcTrg.1] ∧
      trgLinesOf st1 (replaceColons edRD.type) =
        trgLinesOf initSt (replaceColons edRD.type) ++ [edRD.toSrcTrg.2] :=
  per_edit_count_and_lines orcOk "S a dog" 0 initSt edRD (fun _ => rfl)

end Errant
